import Mathlib

/-!
Verification of the semantic-version core of the `bump` tool
(`bump.go` and the pure helpers of `cmd/bump`).

Go strings are modelled as `List Char` (all strings the core manipulates are
ASCII, where Go's byte-wise string order coincides with code-point order).
Go's `int` is modelled as `Int` together with an explicit two's-complement
64-bit wrap `wrap64` applied exactly where the Go code can overflow
(`version.Major++` etc. in `updateVersion`); `strconv.Atoi` is modelled by
`goAtoiDigits`, which fails (and so the callers fall back to `0` /
"not numeric") exactly when the decimal value exceeds `2^63 - 1`.
-/

namespace Bump

/-- Convert a Lean string literal to the `List Char` model of a Go string. -/
def gostr (s : String) : List Char := s.data

/-- maximum value of Go's 64-bit `int`, as a `Nat`. -/
def maxInt64 : Nat := 9223372036854775807

/-- Predicate: `c` is an ASCII decimal digit (`[0-9]` in the regex). -/
def isDigitChar (c : Char) : Bool := '0' ≤ c && c ≤ '9'

/-- Predicate: `c` is allowed inside the pre-release block of
`semanticVersionRegex`, i.e. the character class `[0-9A-Za-z-.]`. -/
def isSuffixChar (c : Char) : Bool :=
  isDigitChar c || ('A' ≤ c && c ≤ 'Z') || ('a' ≤ c && c ≤ 'z') || c = '-' || c = '.'

/-- Decimal value of a digit string (most significant digit first),
as unbounded arithmetic. -/
def digitsToNat (l : List Char) : Nat :=
  l.foldl (fun a c => 10 * a + (c.toNat - 48)) 0

/-- Model of `strconv.Atoi` restricted to all-digit inputs (the only inputs the
`bump` core feeds it): returns the decimal value when it fits Go's
64-bit `int`, and `none` (Go: a non-nil `err`) on overflow. -/
def goAtoiDigits (l : List Char) : Option Nat :=
  if digitsToNat l ≤ maxInt64 then some (digitsToNat l) else none

/-- Function `parseInt` from bump.go: `strconv.Atoi`, defaulting to 0 on error.
Only ever called on the non-empty all-digit capture groups of
`semanticVersionRegex`. -/
def parseInt (s : List Char) : Int :=
  match goAtoiDigits s with
  | some n => (n : Int)
  | none => 0

/-- The struct `tagVersion` from bump.go. -/
structure tagVersion where
  Major : Int
  Minor : Int
  Patch : Int
  Suffix : List Char
  Tag : List Char
deriving DecidableEq, Repr, Inhabited

/-- Function `ParseTagVersion` from bump.go: match the tag against
`semanticVersionRegex` (`^v(\d+)\.(\d+)\.(\d+)(-[0-9A-Za-z-.]+)?$`) and build
a `tagVersion` from the capture groups.  Because `\d` excludes `.` and `-`,
the regex match is deterministic and is implemented here by maximal-munch
digit runs. -/
def ParseTagVersion (tag : List Char) : Option tagVersion :=
  match tag with
  | [] => none
  | c0 :: rest =>
    if c0 = 'v' then
      match rest.dropWhile isDigitChar with
      | c1 :: r2 =>
        if rest.takeWhile isDigitChar ≠ [] ∧ c1 = '.' then
          match r2.dropWhile isDigitChar with
          | c2 :: r4 =>
            if r2.takeWhile isDigitChar ≠ [] ∧ c2 = '.' then
              match r4.dropWhile isDigitChar with
              | [] =>
                if r4.takeWhile isDigitChar ≠ [] then
                  some ⟨parseInt (rest.takeWhile isDigitChar),
                    parseInt (r2.takeWhile isDigitChar),
                    parseInt (r4.takeWhile isDigitChar), [], tag⟩
                else none
              | c3 :: t =>
                if r4.takeWhile isDigitChar ≠ [] ∧ c3 = '-' ∧ t ≠ [] ∧ t.all isSuffixChar then
                  some ⟨parseInt (rest.takeWhile isDigitChar),
                    parseInt (r2.takeWhile isDigitChar),
                    parseInt (r4.takeWhile isDigitChar), '-' :: t, tag⟩
                else none
            else none
          | [] => none
        else none
      | [] => none
    else none

/-- The optional pre-release block of `semanticVersionRegex`, stated
declaratively: absent, or a dash followed by a non-empty run of characters
from `[0-9A-Za-z-.]` (identifiers between dots may be empty — the regex
places `.` inside the character class). -/
def SuffixOk (suf : List Char) : Prop :=
  suf = [] ∨ ∃ t, suf = '-' :: t ∧ t ≠ [] ∧ t.all isSuffixChar = true

/-- Full-string match of `semanticVersionRegex`, stated declaratively as the
existence of a decomposition into the four capture groups. -/
def MatchesTagGrammar (s : List Char) : Prop :=
  ∃ d1 d2 d3 suf,
    s = 'v' :: (d1 ++ '.' :: (d2 ++ '.' :: (d3 ++ suf))) ∧
    d1 ≠ [] ∧ d1.all isDigitChar = true ∧
    d2 ≠ [] ∧ d2.all isDigitChar = true ∧
    d3 ≠ [] ∧ d3.all isDigitChar = true ∧ SuffixOk suf

/-- Model of `strings.TrimPrefix(s, "-")`: drop one leading dash if present. -/
def trimDash : List Char → List Char
  | '-' :: t => t
  | l => l

/-- Model of `strings.Split(s, ".")`: split on every dot; `n` dots give `n+1`
(possibly empty) pieces, and the empty string gives `[""]`. -/
def splitDot : List Char → List (List Char)
  | [] => [[]]
  | '.' :: t => [] :: splitDot t
  | c :: t =>
    match splitDot t with
    | [] => [[c]]
    | p :: r => (c :: p) :: r

/-- Function `parseNumericIdentifier` from bump.go: a non-empty all-digit identifier
parsed via `strconv.Atoi`; overflow of Go's `int` makes `Atoi` fail, so the
identifier is then reported as NOT numeric. -/
def parseNumericIdentifier (id : List Char) : Option Nat :=
  if id.isEmpty then none
  else if id.all isDigitChar then goAtoiDigits id
  else none

/-- Go's byte-wise string `<` on our `List Char` model (for ASCII data the
byte order is the character order). -/
def goStrLt : List Char → List Char → Bool
  | _, [] => false
  | [], _ :: _ => true
  | a :: as, b :: bs =>
    if a < b then true else if b < a then false else goStrLt as bs

/-- The identifier-comparison loop of `compareSuffixes` (bump.go): walk the
two identifier lists in lockstep; when the loop exhausts one list, the longer
list has higher precedence. -/
def cmpIds : List (List Char) → List (List Char) → Bool
  | i1 :: r1, i2 :: r2 =>
    match parseNumericIdentifier i1, parseNumericIdentifier i2 with
    | some n1, some n2 => if n1 ≠ n2 then decide (n1 > n2) else cmpIds r1 r2
    | some _, none => false
    | none, some _ => true
    | none, none => if i1 ≠ i2 then goStrLt i2 i1 else cmpIds r1 r2
  | l1, l2 => decide (l1.length > l2.length)

/-- Function `compareSuffixes` from bump.go: returns `true` iff `suffix1 > suffix2`
in SemVer precedence (for descending sort order). -/
def compareSuffixes (suffix1 suffix2 : List Char) : Bool :=
  if suffix1 = [] ∧ suffix2 ≠ [] then true
  else if suffix1 ≠ [] ∧ suffix2 = [] then false
  else cmpIds (splitDot (trimDash suffix1)) (splitDot (trimDash suffix2))

/-- Function `compareVersions` from bump.go: `true` iff `version1 > version2`. -/
def compareVersions (version1 version2 : tagVersion) : Bool :=
  if version1.Major ≠ version2.Major then decide (version1.Major > version2.Major)
  else if version1.Minor ≠ version2.Minor then decide (version1.Minor > version2.Minor)
  else if version1.Patch ≠ version2.Patch then decide (version1.Patch > version2.Patch)
  else compareSuffixes version1.Suffix version2.Suffix

/-- Two's-complement wrap of Go's 64-bit `int` arithmetic. -/
def wrap64 (n : Int) : Int := (n + 2 ^ 63) % 2 ^ 64 - 2 ^ 63

/-- The two error conditions of the bump engine
(`fmt.Errorf("invalid current tag format: %s", ...)` in `GetNextTag` and
`fmt.Errorf("unknown bump type: %s", ...)` in `updateVersion`). -/
inductive BumpError
  | invalidCurrentTag (tag : List Char)
  | unknownBumpType (bumpType : List Char)
deriving DecidableEq, Repr

instance {ε α : Type} [DecidableEq ε] [DecidableEq α] : DecidableEq (Except ε α) :=
  fun a b =>
    match a, b with
    | .ok x, .ok y =>
      match decEq x y with
      | isTrue h => isTrue (h ▸ rfl)
      | isFalse h => isFalse fun hc => h (Except.ok.inj hc)
    | .error x, .error y =>
      match decEq x y with
      | isTrue h => isTrue (h ▸ rfl)
      | isFalse h => isFalse fun hc => h (Except.error.inj hc)
    | .ok _, .error _ => isFalse fun hc => Except.noConfusion hc
    | .error _, .ok _ => isFalse fun hc => Except.noConfusion hc

/-- Function `updateVersion` from bump.go, with the in-place mutation made explicit:
bump the core triple per the bump type (Go `int` increments wrap), then set
the suffix solely from the `suffix` argument. -/
def updateVersion (version : tagVersion) (bumpType suffix : List Char) :
    Except BumpError tagVersion :=
  let setSuffix : tagVersion → tagVersion := fun v =>
    if suffix ≠ [] then { v with Suffix := '-' :: suffix } else { v with Suffix := [] }
  if bumpType = gostr "major" then
    .ok (setSuffix { version with Major := wrap64 (version.Major + 1), Minor := 0, Patch := 0 })
  else if bumpType = gostr "minor" then
    .ok (setSuffix { version with Minor := wrap64 (version.Minor + 1), Patch := 0 })
  else if bumpType = gostr "patch" then
    .ok (setSuffix { version with Patch := wrap64 (version.Patch + 1) })
  else .error (.unknownBumpType bumpType)

/-- Fuel-based digit accumulator (structural recursion so that concrete
renderings evaluate): peel decimal digits from the right. -/
def natToCharsCore : Nat → Nat → List Char → List Char
  | 0, _, acc => acc
  | fuel + 1, n, acc =>
    if n < 10 then Char.ofNat (48 + n) :: acc
    else natToCharsCore fuel (n / 10) (Char.ofNat (48 + n % 10) :: acc)

/-- Decimal digits of a natural number, as in `fmt.Sprintf("%d", n)`
for `n ≥ 0` (`n + 1` units of fuel always suffice). -/
def natToChars (n : Nat) : List Char := natToCharsCore (n + 1) n []

/-- Model of `fmt.Sprintf("%d", i)` for a Go `int`. -/
def intToChars (i : Int) : List Char :=
  if i < 0 then '-' :: natToChars (-i).toNat else natToChars i.toNat

/-- Function `GetNextTag` from bump.go: parse the current tag, update the version,
and render `fmt.Sprintf("v%d.%d.%d%s", Major, Minor, Patch, Suffix)`. -/
def GetNextTag (currentTag bumpType suffix : List Char) : Except BumpError (List Char) :=
  match ParseTagVersion currentTag with
  | none => .error (.invalidCurrentTag currentTag)
  | some version =>
    match updateVersion version bumpType suffix with
    | .error e => .error e
    | .ok v =>
      .ok ('v' :: intToChars v.Major ++ '.' :: intToChars v.Minor ++
           '.' :: intToChars v.Patch ++ v.Suffix)

/-- Function `getTagVersions` from bump.go, with the git reference iterator abstracted
to the list of short tag names it yields (the iteration itself cannot fail in
this model, matching a healthy repository): keep the tags `ParseTagVersion`
accepts, silently dropping the rest. -/
def getTagVersions (tags : List (List Char)) : List tagVersion :=
  tags.filterMap ParseTagVersion

/-- One insertion step of `sortVersions` (bump.go sorts with `sort.Slice`
using `compareVersions` as the less-function, i.e. descending; modelled by
insertion sort with the same comparator, which produces a list sorted the
same way — `sort.Slice` leaves the order of `compareVersions`-equal
elements unspecified, and no claim depends on it). -/
def insertVersion (v : tagVersion) : List tagVersion → List tagVersion
  | [] => [v]
  | w :: ws => if compareVersions v w then v :: w :: ws else w :: insertVersion v ws

/-- Function `sortVersions` from bump.go: sort descending by `compareVersions`. -/
def sortVersions (versions : List tagVersion) : List tagVersion :=
  versions.foldr insertVersion []

/-- Function `GetLatestTag` from bump.go over the abstracted tag list: parse and
filter, sort descending, return the first tag, or `none` (Go: `""`, nil
error) when no tag parses. -/
def GetLatestTag (tags : List (List Char)) : Option (List Char) :=
  match sortVersions (getTagVersions tags) with
  | [] => none
  | v :: _ => some v.Tag

/-- Function `calculateNextVersion` from cmd/bump (service.go): brand-new repository
(empty latest tag) starts at `v0.1.0`; otherwise delegate to `GetNextTag`. -/
def calculateNextVersion (latestTag bumpType suffix : List Char) :
    Except BumpError (List Char) :=
  if latestTag = [] then .ok (gostr "v0.1.0") else GetNextTag latestTag bumpType suffix

/-! ### Order-theoretic analysis of the comparator

`compareVersions` is shown to be the strict part of a total preorder by
exhibiting a key function `vKey` and a strict order `vLt` on keys with
`compareVersions v1 v2 = vLt (vKey v2) (vKey v1)`. -/

/-- The precedence class of one pre-release identifier: its numeric value
when `parseNumericIdentifier` accepts it, otherwise the raw string. -/
abbrev IdKey := Nat ⊕ List Char

/-- Key of one identifier. -/
def idKey (id : List Char) : IdKey :=
  match parseNumericIdentifier id with
  | some n => .inl n
  | none => .inr id

/-- Strict order on identifier keys: numeric below alphanumeric, numeric by
value, alphanumeric by Go string order. -/
def idKeyLt : IdKey → IdKey → Bool
  | .inl n, .inl m => decide (n < m)
  | .inl _, .inr _ => true
  | .inr _, .inl _ => false
  | .inr s, .inr t => goStrLt s t

/-- Lexicographic extension of `idKeyLt` to identifier lists; a strict
prefix is smaller. -/
def lexLt : List IdKey → List IdKey → Bool
  | _, [] => false
  | [], _ :: _ => true
  | a :: as, b :: bs => if idKeyLt a b then true else if idKeyLt b a then false else lexLt as bs

/-- Key of a whole suffix: `none` (top) for the empty suffix, otherwise the
identifier keys of the dash-stripped dot-split suffix. -/
def sufKey (s : List Char) : Option (List IdKey) :=
  if s = [] then none else some ((splitDot (trimDash s)).map idKey)

/-- Strict order on suffix keys, with the stable version (`none`) on top. -/
def sufKeyLt : Option (List IdKey) → Option (List IdKey) → Bool
  | some l1, some l2 => lexLt l1 l2
  | some _, none => true
  | none, _ => false

/-- Key of a whole version. -/
def vKey (v : tagVersion) : Int × Int × Int × Option (List IdKey) :=
  (v.Major, v.Minor, v.Patch, sufKey v.Suffix)

/-- One level of an integer-lexicographic comparison: decide by `x < y`
unless the components are equal, in which case defer to `rest`. -/
def intThen (x y : Int) (rest : Bool) : Bool :=
  if x ≠ y then decide (x < y) else rest

/-- Strict lexicographic order on version keys. -/
def vLt : Int × Int × Int × Option (List IdKey) → Int × Int × Int × Option (List IdKey) → Bool
  | (a1, b1, c1, s1), (a2, b2, c2, s2) =>
    intThen a1 a2 (intThen b1 b2 (intThen c1 c2 (sufKeyLt s1 s2)))

theorem goStrLt_irrefl (s : List Char) : goStrLt s s = false := by
  induction s with
  | nil => rfl
  | cons a as ih => simp [goStrLt, ih]

theorem goStrLt_trans (s t u : List Char) (h1 : goStrLt s t = true)
    (h2 : goStrLt t u = true) : goStrLt s u = true := by
  induction s generalizing t u with
  | nil =>
    cases u with
    | nil =>
      cases t with
      | nil => simp [goStrLt] at h1
      | cons b bs => simp [goStrLt] at h2
    | cons c cs => simp [goStrLt]
  | cons a as ih =>
    cases t with
    | nil => simp [goStrLt] at h1
    | cons b bs =>
      cases u with
      | nil => simp [goStrLt] at h2
      | cons c cs =>
        simp only [goStrLt] at h1 h2 ⊢
        rcases lt_trichotomy a b with hab | hab | hab
        · rcases lt_trichotomy b c with hbc | hbc | hbc
          · simp [lt_trans hab hbc]
          · subst hbc; simp [hab]
          · rw [if_neg (lt_asymm hbc), if_pos hbc] at h2; exact absurd h2 (by simp)
        · subst hab
          rcases lt_trichotomy a c with hac | hac | hac
          · simp [hac]
          · subst hac
            simp only [lt_irrefl, if_false] at h1 h2 ⊢
            exact ih bs cs h1 h2
          · rw [if_neg (lt_asymm hac), if_pos hac] at h2; exact absurd h2 (by simp)
        · rw [if_neg (lt_asymm hab), if_pos hab] at h1; exact absurd h1 (by simp)

theorem goStrLt_eq_of_incomp (s t : List Char) (h1 : goStrLt s t = false)
    (h2 : goStrLt t s = false) : s = t := by
  induction s generalizing t with
  | nil =>
    cases t with
    | nil => rfl
    | cons b bs => simp [goStrLt] at h1
  | cons a as ih =>
    cases t with
    | nil => simp [goStrLt] at h2
    | cons b bs =>
      simp only [goStrLt] at h1 h2
      rcases lt_trichotomy a b with hab | hab | hab
      · rw [if_pos hab] at h1; exact absurd h1 (by simp)
      · subst hab
        simp only [lt_irrefl, if_false] at h1 h2
        rw [ih bs h1 h2]
      · rw [if_pos hab] at h2; exact absurd h2 (by simp)

theorem goStrLt_asymm (s t : List Char) (h : goStrLt s t = true) : goStrLt t s = false := by
  cases hts : goStrLt t s with
  | false => rfl
  | true =>
    have := goStrLt_trans s t s h hts
    rw [goStrLt_irrefl] at this
    exact absurd this (by simp)

theorem idKeyLt_irrefl (k : IdKey) : idKeyLt k k = false := by
  cases k with
  | inl n => simp [idKeyLt]
  | inr s => simp [idKeyLt, goStrLt_irrefl]

theorem idKeyLt_trans (a b c : IdKey) (h1 : idKeyLt a b = true)
    (h2 : idKeyLt b c = true) : idKeyLt a c = true := by
  cases a <;> cases b <;> cases c <;> simp [idKeyLt] at h1 h2 ⊢
  · exact lt_trans h1 h2
  · exact goStrLt_trans _ _ _ h1 h2

theorem idKeyLt_eq_of_incomp (a b : IdKey) (h1 : idKeyLt a b = false)
    (h2 : idKeyLt b a = false) : a = b := by
  cases a <;> cases b <;> simp [idKeyLt] at h1 h2 ⊢
  · exact le_antisymm h2 h1
  · exact goStrLt_eq_of_incomp _ _ h1 h2

theorem idKeyLt_asymm (a b : IdKey) (h : idKeyLt a b = true) : idKeyLt b a = false := by
  cases hba : idKeyLt b a with
  | false => rfl
  | true =>
    have := idKeyLt_trans a b a h hba
    rw [idKeyLt_irrefl] at this
    exact absurd this (by simp)

/-- Trichotomy for identifier keys. -/
theorem idKey_trichot (a b : IdKey) :
    idKeyLt a b = true ∨ (idKeyLt a b = false ∧ idKeyLt b a = true) ∨
      (a = b ∧ idKeyLt a b = false ∧ idKeyLt b a = false) := by
  cases hab : idKeyLt a b with
  | true => exact Or.inl rfl
  | false =>
    cases hba : idKeyLt b a with
    | true => exact Or.inr (Or.inl ⟨rfl, rfl⟩)
    | false => exact Or.inr (Or.inr ⟨idKeyLt_eq_of_incomp a b hab hba, rfl, rfl⟩)

theorem lexLt_irrefl (l : List IdKey) : lexLt l l = false := by
  induction l with
  | nil => rfl
  | cons a as ih => simp [lexLt, idKeyLt_irrefl, ih]

theorem lexLt_trans (l1 l2 l3 : List IdKey) (h1 : lexLt l1 l2 = true)
    (h2 : lexLt l2 l3 = true) : lexLt l1 l3 = true := by
  induction l1 generalizing l2 l3 with
  | nil =>
    cases l3 with
    | nil =>
      cases l2 with
      | nil => simp [lexLt] at h1
      | cons b bs => simp [lexLt] at h2
    | cons c cs => simp [lexLt]
  | cons a as ih =>
    cases l2 with
    | nil => simp [lexLt] at h1
    | cons b bs =>
      cases l3 with
      | nil => simp [lexLt] at h2
      | cons c cs =>
        rcases idKey_trichot a b with hab | ⟨hab, hba⟩ | ⟨rfl, hab, hba⟩
        · rcases idKey_trichot b c with hbc | ⟨hbc, hcb⟩ | ⟨rfl, hbc, hcb⟩
          · simp [lexLt, idKeyLt_trans a b c hab hbc]
          · simp [lexLt, hbc, hcb] at h2
          · simp [lexLt, hab]
        · simp [lexLt, hab, hba] at h1
        · simp only [lexLt, hab, hba] at h1
          simp only [if_neg (by simp : ¬ (false = true))] at h1
          rcases idKey_trichot a c with hac | ⟨hac, hca⟩ | ⟨rfl, hac, hca⟩
          · simp [lexLt, hac]
          · simp [lexLt, hac, hca] at h2
          · simp only [lexLt, hac, hca] at h2 ⊢
            simp only [if_neg (by simp : ¬ (false = true))] at h2 ⊢
            exact ih bs cs h1 h2

theorem lexLt_eq_of_incomp (l1 l2 : List IdKey) (h1 : lexLt l1 l2 = false)
    (h2 : lexLt l2 l1 = false) : l1 = l2 := by
  induction l1 generalizing l2 with
  | nil =>
    cases l2 with
    | nil => rfl
    | cons b bs => simp [lexLt] at h1
  | cons a as ih =>
    cases l2 with
    | nil => simp [lexLt] at h2
    | cons b bs =>
      rcases idKey_trichot a b with hab | ⟨hab, hba⟩ | ⟨rfl, hab, hba⟩
      · simp [lexLt, hab] at h1
      · simp [lexLt, hab, hba] at h2
      · simp only [lexLt, hab, hba] at h1 h2
        simp only [if_neg (by simp : ¬ (false = true))] at h1 h2
        rw [ih bs h1 h2]

theorem lexLt_asymm (l1 l2 : List IdKey) (h : lexLt l1 l2 = true) : lexLt l2 l1 = false := by
  cases h21 : lexLt l2 l1 with
  | false => rfl
  | true =>
    have := lexLt_trans l1 l2 l1 h h21
    rw [lexLt_irrefl] at this
    exact absurd this (by simp)

theorem sufKeyLt_irrefl (k : Option (List IdKey)) : sufKeyLt k k = false := by
  cases k with
  | none => rfl
  | some l => simp [sufKeyLt, lexLt_irrefl]

theorem sufKeyLt_trans (a b c : Option (List IdKey)) (h1 : sufKeyLt a b = true)
    (h2 : sufKeyLt b c = true) : sufKeyLt a c = true := by
  cases a <;> cases b <;> cases c <;> simp [sufKeyLt] at h1 h2 ⊢
  exact lexLt_trans _ _ _ h1 h2

theorem sufKeyLt_eq_of_incomp (a b : Option (List IdKey)) (h1 : sufKeyLt a b = false)
    (h2 : sufKeyLt b a = false) : a = b := by
  cases a <;> cases b <;> simp [sufKeyLt] at h1 h2 ⊢
  exact lexLt_eq_of_incomp _ _ h1 h2

theorem intThen_irrefl (x : Int) (r : Bool) : intThen x x r = r := by
  simp [intThen]

theorem intThen_trans (x y z : Int) (r1 r2 r3 : Bool)
    (hr : r1 = true → r2 = true → r3 = true)
    (h1 : intThen x y r1 = true) (h2 : intThen y z r2 = true) :
    intThen x z r3 = true := by
  rcases eq_or_ne x y with rfl | hxy
  · rw [intThen_irrefl] at h1
    rcases eq_or_ne x z with rfl | hxz
    · rw [intThen_irrefl] at h2 ⊢
      exact hr h1 h2
    · simpa [intThen, hxz] using h2
  · rcases eq_or_ne y z with rfl | hyz
    · simpa [intThen, hxy] using h1
    · simp only [intThen, ne_eq, hxy, hyz, not_false_eq_true, if_true,
        decide_eq_true_eq] at h1 h2
      have hlt : x < z := lt_trans h1 h2
      simp [intThen, ne_of_lt hlt, hlt]

theorem intThen_incomp (x y : Int) (r1 r2 : Bool)
    (h1 : intThen x y r1 = false) (h2 : intThen y x r2 = false) :
    x = y ∧ r1 = false ∧ r2 = false := by
  rcases eq_or_ne x y with rfl | hxy
  · rw [intThen_irrefl] at h1 h2
    exact ⟨rfl, h1, h2⟩
  · rcases lt_trichotomy x y with h | h | h
    · simp [intThen, hxy, h] at h1
    · exact absurd h hxy
    · simp [intThen, Ne.symm hxy, h] at h2

theorem vLt_irrefl (k : Int × Int × Int × Option (List IdKey)) : vLt k k = false := by
  obtain ⟨a, b, c, s⟩ := k
  simp [vLt, intThen_irrefl, sufKeyLt_irrefl]

theorem vLt_trans (k1 k2 k3 : Int × Int × Int × Option (List IdKey))
    (h1 : vLt k1 k2 = true) (h2 : vLt k2 k3 = true) : vLt k1 k3 = true := by
  obtain ⟨a1, b1, c1, s1⟩ := k1
  obtain ⟨a2, b2, c2, s2⟩ := k2
  obtain ⟨a3, b3, c3, s3⟩ := k3
  simp only [vLt] at h1 h2 ⊢
  refine intThen_trans _ _ _ _ _ _ (fun g1 g2 => ?_) h1 h2
  refine intThen_trans _ _ _ _ _ _ (fun g1' g2' => ?_) g1 g2
  refine intThen_trans _ _ _ _ _ _ (fun g1'' g2'' => ?_) g1' g2'
  exact sufKeyLt_trans _ _ _ g1'' g2''

theorem vLt_eq_of_incomp (k1 k2 : Int × Int × Int × Option (List IdKey))
    (h1 : vLt k1 k2 = false) (h2 : vLt k2 k1 = false) : k1 = k2 := by
  obtain ⟨a1, b1, c1, s1⟩ := k1
  obtain ⟨a2, b2, c2, s2⟩ := k2
  simp only [vLt] at h1 h2
  obtain ⟨rfl, h1, h2⟩ := intThen_incomp _ _ _ _ h1 h2
  obtain ⟨rfl, h1, h2⟩ := intThen_incomp _ _ _ _ h1 h2
  obtain ⟨rfl, h1, h2⟩ := intThen_incomp _ _ _ _ h1 h2
  rw [sufKeyLt_eq_of_incomp s1 s2 h1 h2]

/-! ### `compareVersions` is the strict part of the key order -/

theorem cmpIds_eq_lexLt (l1 l2 : List (List Char)) :
    cmpIds l1 l2 = lexLt (l2.map idKey) (l1.map idKey) := by
  induction l1 generalizing l2 with
  | nil =>
    cases l2 with
    | nil => rfl
    | cons i2 r2 => simp [cmpIds, lexLt]
  | cons i1 r1 ih =>
    cases l2 with
    | nil => simp [cmpIds, lexLt]
    | cons i2 r2 =>
      simp only [cmpIds, List.map_cons]
      cases h1 : parseNumericIdentifier i1 with
      | some n1 =>
        cases h2 : parseNumericIdentifier i2 with
        | some n2 =>
          rcases lt_trichotomy n1 n2 with h | rfl | h
          · have hne : n1 ≠ n2 := ne_of_lt h
            have hnot : ¬ n2 < n1 := lt_asymm h
            simp [lexLt, idKey, idKeyLt, h1, h2, hne, h, hnot, gt_iff_lt]
          · simp [lexLt, idKey, idKeyLt, h1, h2, ih r2]
          · have hne : n1 ≠ n2 := (ne_of_lt h).symm
            have hnot : ¬ n1 < n2 := lt_asymm h
            simp [lexLt, idKey, idKeyLt, h1, h2, hne, h, hnot, gt_iff_lt]
        | none => simp [lexLt, idKey, idKeyLt, h1, h2]
      | none =>
        cases h2 : parseNumericIdentifier i2 with
        | some n2 => simp [lexLt, idKey, idKeyLt, h1, h2]
        | none =>
          rcases eq_or_ne i1 i2 with rfl | hne
          · simp [lexLt, idKey, idKeyLt, h1, goStrLt_irrefl, ih r2]
          · cases hgo : goStrLt i2 i1 with
            | true => simp [lexLt, idKey, idKeyLt, h1, h2, hne, hgo]
            | false =>
              have hgo' : goStrLt i1 i2 = true := by
                cases hx : goStrLt i1 i2 with
                | true => rfl
                | false => exact absurd (goStrLt_eq_of_incomp i1 i2 hx hgo) hne
              simp [lexLt, idKey, idKeyLt, h1, h2, hne, hgo, hgo']

theorem compareSuffixes_eq_sufKeyLt (s1 s2 : List Char) :
    compareSuffixes s1 s2 = sufKeyLt (sufKey s2) (sufKey s1) := by
  rcases eq_or_ne s1 [] with rfl | h1
  · rcases eq_or_ne s2 [] with rfl | h2
    · rfl
    · simp [compareSuffixes, sufKey, sufKeyLt, h2]
  · rcases eq_or_ne s2 [] with rfl | h2
    · simp [compareSuffixes, sufKey, sufKeyLt, h1]
    · simp [compareSuffixes, sufKey, sufKeyLt, h1, h2, cmpIds_eq_lexLt]

theorem compareVersions_eq_vLt (v1 v2 : tagVersion) :
    compareVersions v1 v2 = vLt (vKey v2) (vKey v1) := by
  simp only [compareVersions, vKey, vLt, intThen]
  rcases eq_or_ne v1.Major v2.Major with he | hne
  · simp only [he]
    have hc : ¬(v2.Major ≠ v2.Major) := by simp
    simp only [if_neg hc]
    rcases eq_or_ne v1.Minor v2.Minor with he' | hne'
    · simp only [he']
      have hc' : ¬(v2.Minor ≠ v2.Minor) := by simp
      simp only [if_neg hc']
      rcases eq_or_ne v1.Patch v2.Patch with he'' | hne''
      · simp only [he'']
        have hc'' : ¬(v2.Patch ≠ v2.Patch) := by simp
        simp only [if_neg hc'']
        exact compareSuffixes_eq_sufKeyLt _ _
      · simp only [if_pos hne'', if_pos (Ne.symm hne'')]
    · simp only [if_pos hne', if_pos (Ne.symm hne')]
  · simp only [if_pos hne, if_pos (Ne.symm hne)]

/-- Transitivity of the comparator. -/
theorem compareVersions_trans (a b c : tagVersion) (h1 : compareVersions a b = true)
    (h2 : compareVersions b c = true) : compareVersions a c = true := by
  rw [compareVersions_eq_vLt] at h1 h2 ⊢
  exact vLt_trans _ _ _ h2 h1

/-- Asymmetry of the comparator. -/
theorem compareVersions_asymm (a b : tagVersion) (h : compareVersions a b = true) :
    compareVersions b a = false := by
  rw [compareVersions_eq_vLt] at h ⊢
  cases hba : vLt (vKey a) (vKey b) with
  | false => rfl
  | true =>
    have := vLt_trans _ _ _ h hba
    rw [vLt_irrefl] at this
    exact absurd this (by simp)

/-- The comparator reports a tie exactly on key equality. -/
theorem compareVersions_incomp_iff (a b : tagVersion) :
    (compareVersions a b = false ∧ compareVersions b a = false) ↔ vKey a = vKey b := by
  constructor
  · rintro ⟨h1, h2⟩
    rw [compareVersions_eq_vLt] at h1 h2
    exact vLt_eq_of_incomp _ _ h2 h1
  · intro h
    rw [compareVersions_eq_vLt, compareVersions_eq_vLt, h]
    exact ⟨vLt_irrefl _, vLt_irrefl _⟩

/-! ### Parser correctness against the declarative grammar -/

theorem takeWhile_digits_prefix (d r : List Char) (c : Char) (ha : d.all isDigitChar = true)
    (hc : isDigitChar c = false) :
    ((d ++ c :: r).takeWhile isDigitChar = d) ∧
      ((d ++ c :: r).dropWhile isDigitChar = c :: r) := by
  induction d with
  | nil => simp [List.takeWhile_cons, List.dropWhile_cons, hc]
  | cons a as ih =>
    simp only [List.all_cons, Bool.and_eq_true] at ha
    have h' := ih ha.2
    simp [List.takeWhile_cons, List.dropWhile_cons, ha.1, h'.1, h'.2]

theorem takeWhile_digits_all (d : List Char) (ha : d.all isDigitChar = true) :
    (d.takeWhile isDigitChar = d) ∧ (d.dropWhile isDigitChar = []) := by
  induction d with
  | nil => simp
  | cons a as ih =>
    simp only [List.all_cons, Bool.and_eq_true] at ha
    have h' := ih ha.2
    simp [List.takeWhile_cons, List.dropWhile_cons, ha.1, h'.1, h'.2]

theorem takeWhile_all_sat (p : Char → Bool) (l : List Char) :
    (l.takeWhile p).all p = true := by
  induction l with
  | nil => rfl
  | cons a as ih =>
    by_cases hpa : p a <;> simp [List.takeWhile_cons, hpa, ih]

/-- Completeness with value characterization: on a string of the grammar's
shape, the parser succeeds and returns exactly the `parseInt` of the three
digit groups and the raw suffix group. -/
theorem ParseTagVersion_complete (d1 d2 d3 suf : List Char)
    (h1 : d1 ≠ []) (ha1 : d1.all isDigitChar = true)
    (h2 : d2 ≠ []) (ha2 : d2.all isDigitChar = true)
    (h3 : d3 ≠ []) (ha3 : d3.all isDigitChar = true)
    (hs : SuffixOk suf) :
    ParseTagVersion ('v' :: (d1 ++ '.' :: (d2 ++ '.' :: (d3 ++ suf)))) =
      some ⟨parseInt d1, parseInt d2, parseInt d3, suf,
        'v' :: (d1 ++ '.' :: (d2 ++ '.' :: (d3 ++ suf)))⟩ := by
  have e1 := takeWhile_digits_prefix d1 (d2 ++ '.' :: (d3 ++ suf)) '.' ha1 rfl
  have e2 := takeWhile_digits_prefix d2 (d3 ++ suf) '.' ha2 rfl
  rcases hs with rfl | ⟨t, rfl, ht1, ht2⟩
  · have e3 := takeWhile_digits_all d3 ha3
    simp only [List.append_nil] at *
    simp [ParseTagVersion, e1.1, e1.2, e2.1, e2.2, e3.1, e3.2, h1, h2, h3]
  · have e3 := takeWhile_digits_prefix d3 t '-' ha3 rfl
    simp [ParseTagVersion, e1.1, e1.2, e2.1, e2.2, e3.1, e3.2, h1, h2, h3, ht1, ht2]

/-- Soundness: a successful parse exhibits the grammar decomposition. -/
theorem ParseTagVersion_sound (s : List Char) (v : tagVersion)
    (h : ParseTagVersion s = some v) : MatchesTagGrammar s := by
  cases s with
  | nil => simp [ParseTagVersion] at h
  | cons c0 rest =>
    by_cases hc0 : c0 = 'v'
    case neg => simp [ParseTagVersion, hc0] at h
    subst hc0
    simp only [ParseTagVersion] at h
    rw [if_pos trivial] at h
    cases hdw1 : rest.dropWhile isDigitChar with
    | nil => rw [hdw1] at h; simp at h
    | cons c1 r2 =>
      rw [hdw1] at h
      dsimp only at h
      by_cases hcond1 : rest.takeWhile isDigitChar ≠ [] ∧ c1 = '.'
      case neg => rw [if_neg hcond1] at h; simp at h
      obtain ⟨hd1, rfl⟩ := hcond1
      rw [if_pos ⟨hd1, rfl⟩] at h
      cases hdw2 : r2.dropWhile isDigitChar with
      | nil => rw [hdw2] at h; simp at h
      | cons c2 r4 =>
        rw [hdw2] at h
        dsimp only at h
        by_cases hcond2 : r2.takeWhile isDigitChar ≠ [] ∧ c2 = '.'
        case neg => rw [if_neg hcond2] at h; simp at h
        obtain ⟨hd2, rfl⟩ := hcond2
        rw [if_pos ⟨hd2, rfl⟩] at h
        have hr : rest = rest.takeWhile isDigitChar ++ '.' :: r2 := by
          conv_lhs => rw [← List.takeWhile_append_dropWhile (p := isDigitChar) (l := rest)]
          rw [hdw1]
        have hr2 : r2 = r2.takeWhile isDigitChar ++ '.' :: r4 := by
          conv_lhs => rw [← List.takeWhile_append_dropWhile (p := isDigitChar) (l := r2)]
          rw [hdw2]
        cases hdw3 : r4.dropWhile isDigitChar with
        | nil =>
          rw [hdw3] at h
          dsimp only at h
          by_cases hd3 : r4.takeWhile isDigitChar ≠ []
          case neg => rw [if_neg hd3] at h; simp at h
          have hr4 : r4 = r4.takeWhile isDigitChar ++ [] := by
            conv_lhs => rw [← List.takeWhile_append_dropWhile (p := isDigitChar) (l := r4)]
            rw [hdw3]
          refine ⟨rest.takeWhile isDigitChar, r2.takeWhile isDigitChar,
            r4.takeWhile isDigitChar, [], ?_, hd1, takeWhile_all_sat _ _,
            hd2, takeWhile_all_sat _ _, hd3, takeWhile_all_sat _ _, Or.inl rfl⟩
          rw [← hr4, ← hr2, ← hr]
        | cons c3 t =>
          rw [hdw3] at h
          dsimp only at h
          by_cases hcond3 : r4.takeWhile isDigitChar ≠ [] ∧ c3 = '-' ∧ t ≠ [] ∧
            t.all isSuffixChar = true
          case neg => rw [if_neg (by simpa using hcond3)] at h; simp at h
          obtain ⟨hd3, rfl, ht1, ht2⟩ := hcond3
          have hr4 : r4 = r4.takeWhile isDigitChar ++ '-' :: t := by
            conv_lhs => rw [← List.takeWhile_append_dropWhile (p := isDigitChar) (l := r4)]
            rw [hdw3]
          refine ⟨rest.takeWhile isDigitChar, r2.takeWhile isDigitChar,
            r4.takeWhile isDigitChar, '-' :: t, ?_, hd1, takeWhile_all_sat _ _,
            hd2, takeWhile_all_sat _ _, hd3, takeWhile_all_sat _ _,
            Or.inr ⟨t, rfl, ht1, ht2⟩⟩
          rw [← hr4, ← hr2, ← hr]

/-! ### Decimal rendering and Go `int` arithmetic -/

theorem digitsToNat_go (l : List Char) (i : Nat) :
    l.foldl (fun a c => 10 * a + (c.toNat - 48)) i = i * 10 ^ l.length + digitsToNat l := by
  induction l generalizing i with
  | nil => simp [digitsToNat]
  | cons c cs ih =>
    simp only [List.foldl_cons, digitsToNat, List.length_cons]
    rw [ih, ih]
    ring

theorem digitsToNat_append (a b : List Char) :
    digitsToNat (a ++ b) = digitsToNat a * 10 ^ b.length + digitsToNat b := by
  simp only [digitsToNat, List.foldl_append]
  rw [digitsToNat_go]
  rfl

theorem digit_char_spec (m : Nat) (hm : m < 10) :
    isDigitChar (Char.ofNat (48 + m)) = true ∧ (Char.ofNat (48 + m)).toNat = 48 + m := by
  interval_cases m <;> exact ⟨by decide, by decide⟩

theorem natToCharsCore_spec (fuel : Nat) : ∀ n acc, n < fuel →
    ∃ ds, natToCharsCore fuel n acc = ds ++ acc ∧ ds ≠ [] ∧
      ds.all isDigitChar = true ∧ digitsToNat ds = n := by
  induction fuel with
  | zero => intro n acc h; omega
  | succ fuel ih =>
    intro n acc hn
    by_cases h : n < 10
    · refine ⟨[Char.ofNat (48 + n)], ?_, by simp, ?_, ?_⟩
      · simp [natToCharsCore, h]
      · obtain ⟨hd, -⟩ := digit_char_spec n h
        simp [hd]
      · obtain ⟨-, hv⟩ := digit_char_spec n h
        simp [digitsToNat, hv]
    · have hlt : n / 10 < n := Nat.div_lt_self (by omega) (by norm_num)
      obtain ⟨ds', heq, hne, hall, hval⟩ := ih (n / 10) (Char.ofNat (48 + n % 10) :: acc)
        (by omega)
      have hm : n % 10 < 10 := Nat.mod_lt _ (by norm_num)
      obtain ⟨hd, hv⟩ := digit_char_spec (n % 10) hm
      refine ⟨ds' ++ [Char.ofNat (48 + n % 10)], ?_, by simp, ?_, ?_⟩
      · simp only [natToCharsCore, if_neg h]
        rw [heq, List.append_assoc]
        rfl
      · simp [List.all_append, hall, hd]
      · rw [digitsToNat_append, hval]
        simp [digitsToNat, hv]
        omega

theorem natToChars_spec (n : Nat) :
    natToChars n ≠ [] ∧ (natToChars n).all isDigitChar = true ∧
      digitsToNat (natToChars n) = n := by
  obtain ⟨ds, heq, hne, hall, hval⟩ := natToCharsCore_spec (n + 1) n [] (by omega)
  unfold natToChars
  rw [heq, List.append_nil]
  exact ⟨hne, hall, hval⟩

/-- Values returned by `parseInt` always lie in `[0, maxInt64]`. -/
theorem parseInt_bounds (l : List Char) :
    0 ≤ parseInt l ∧ parseInt l ≤ (maxInt64 : Int) := by
  unfold parseInt goAtoiDigits
  by_cases h : digitsToNat l ≤ maxInt64
  · rw [if_pos h]
    exact ⟨Int.ofNat_nonneg _, by simpa using (Int.ofNat_le.mpr h)⟩
  · rw [if_neg h]
    exact ⟨le_refl 0, by norm_num [maxInt64]⟩

theorem parseInt_natToChars (m : Nat) (hm : m ≤ maxInt64) :
    parseInt (natToChars m) = (m : Int) := by
  obtain ⟨-, -, hval⟩ := natToChars_spec m
  simp [parseInt, goAtoiDigits, hval, hm]

/-- Go `int` addition does not wrap inside the representable range. -/
theorem wrap64_eq_self (n : Int) (h1 : -(2 ^ 63) ≤ n) (h2 : n ≤ 2 ^ 63 - 1) :
    wrap64 n = n := by
  unfold wrap64
  rw [Int.emod_eq_of_lt (by omega) (by omega)]
  omega

theorem intToChars_of_nonneg (i : Int) (h : 0 ≤ i) : intToChars i = natToChars i.toNat := by
  simp [intToChars, not_lt_of_le h]

/-! ### Characterizing a successful parse and the bump engine -/

/-- A successful parse pins the returned record down to the grammar
decomposition of its input. -/
theorem ParseTagVersion_eq (s : List Char) (v : tagVersion)
    (h : ParseTagVersion s = some v) :
    ∃ d1 d2 d3 suf,
      s = 'v' :: (d1 ++ '.' :: (d2 ++ '.' :: (d3 ++ suf))) ∧
      d1 ≠ [] ∧ d1.all isDigitChar = true ∧
      d2 ≠ [] ∧ d2.all isDigitChar = true ∧
      d3 ≠ [] ∧ d3.all isDigitChar = true ∧ SuffixOk suf ∧
      v = ⟨parseInt d1, parseInt d2, parseInt d3, suf, s⟩ := by
  obtain ⟨d1, d2, d3, suf, hs, h1, ha1, h2, ha2, h3, ha3, hsuf⟩ :=
    ParseTagVersion_sound s v h
  refine ⟨d1, d2, d3, suf, hs, h1, ha1, h2, ha2, h3, ha3, hsuf, ?_⟩
  have hc := ParseTagVersion_complete d1 d2 d3 suf h1 ha1 h2 ha2 h3 ha3 hsuf
  rw [← hs] at hc
  rw [h] at hc
  exact Option.some_inj.mp hc

/-- Field bounds and shape facts for any successfully parsed version. -/
theorem ParseTagVersion_fields (s : List Char) (v : tagVersion)
    (h : ParseTagVersion s = some v) :
    0 ≤ v.Major ∧ v.Major ≤ (maxInt64 : Int) ∧
    0 ≤ v.Minor ∧ v.Minor ≤ (maxInt64 : Int) ∧
    0 ≤ v.Patch ∧ v.Patch ≤ (maxInt64 : Int) ∧
    SuffixOk v.Suffix ∧ v.Tag = s := by
  obtain ⟨d1, d2, d3, suf, hs, h1, ha1, h2, ha2, h3, ha3, hsuf, hv⟩ :=
    ParseTagVersion_eq s v h
  subst hv
  exact ⟨(parseInt_bounds d1).1, (parseInt_bounds d1).2, (parseInt_bounds d2).1,
    (parseInt_bounds d2).2, (parseInt_bounds d3).1, (parseInt_bounds d3).2, hsuf, rfl⟩

/-- Evaluation of `updateVersion` on the "major" bump type. -/
theorem updateVersion_major (v : tagVersion) (suffix : List Char) :
    updateVersion v (gostr "major") suffix =
      .ok ⟨wrap64 (v.Major + 1), 0, 0,
        if suffix = [] then [] else '-' :: suffix, v.Tag⟩ := by
  rcases eq_or_ne suffix [] with rfl | hs
  · simp [updateVersion]
  · simp [updateVersion, hs]

/-- Evaluation of `updateVersion` on the "minor" bump type. -/
theorem updateVersion_minor (v : tagVersion) (suffix : List Char) :
    updateVersion v (gostr "minor") suffix =
      .ok ⟨v.Major, wrap64 (v.Minor + 1), 0,
        if suffix = [] then [] else '-' :: suffix, v.Tag⟩ := by
  have hne : gostr "minor" ≠ gostr "major" := by decide
  rcases eq_or_ne suffix [] with rfl | hs
  · simp [updateVersion, hne]
  · simp [updateVersion, hne, hs]

/-- Evaluation of `updateVersion` on the "patch" bump type. -/
theorem updateVersion_patch (v : tagVersion) (suffix : List Char) :
    updateVersion v (gostr "patch") suffix =
      .ok ⟨v.Major, v.Minor, wrap64 (v.Patch + 1),
        if suffix = [] then [] else '-' :: suffix, v.Tag⟩ := by
  have hne1 : gostr "patch" ≠ gostr "major" := by decide
  have hne2 : gostr "patch" ≠ gostr "minor" := by decide
  rcases eq_or_ne suffix [] with rfl | hs
  · simp [updateVersion, hne1, hne2]
  · simp [updateVersion, hne1, hne2, hs]

/-- Evaluation of `updateVersion` on an unrecognized bump type. -/
theorem updateVersion_unknown (v : tagVersion) (bumpType suffix : List Char)
    (h1 : bumpType ≠ gostr "major") (h2 : bumpType ≠ gostr "minor")
    (h3 : bumpType ≠ gostr "patch") :
    updateVersion v bumpType suffix = .error (.unknownBumpType bumpType) := by
  simp [updateVersion, h1, h2, h3]

/-! ### The selector (`GetLatestTag`) -/

/-- The comparator never reports a version above itself. -/
theorem compareVersions_irrefl (v : tagVersion) : compareVersions v v = false := by
  rw [compareVersions_eq_vLt]
  exact vLt_irrefl _

theorem mem_insertVersion (v w : tagVersion) (l : List tagVersion) :
    w ∈ insertVersion v l ↔ w = v ∨ w ∈ l := by
  induction l with
  | nil => simp [insertVersion]
  | cons x xs ih =>
    by_cases hc : compareVersions v x = true
    · simp [insertVersion, hc]
    · simp only [insertVersion, if_neg hc, List.mem_cons, ih]
      tauto

theorem mem_sortVersions (w : tagVersion) (l : List tagVersion) :
    w ∈ sortVersions l ↔ w ∈ l := by
  induction l with
  | nil => simp [sortVersions]
  | cons x xs ih =>
    simp only [sortVersions, List.foldr_cons] at *
    rw [mem_insertVersion, ih]
    simp

theorem sortVersions_eq_nil_iff (l : List tagVersion) : sortVersions l = [] ↔ l = [] := by
  induction l with
  | nil => simp [sortVersions]
  | cons x xs ih =>
    simp only [sortVersions, List.foldr_cons]
    constructor
    · intro h
      cases hs : (sortVersions xs) with
      | nil => rw [show xs.foldr insertVersion [] = sortVersions xs from rfl, hs] at h; simp [insertVersion] at h
      | cons y ys =>
        rw [show xs.foldr insertVersion [] = sortVersions xs from rfl, hs] at h
        by_cases hc : compareVersions x y = true <;> simp [insertVersion, hc] at h
    · intro h
      exact absurd h (by simp)

/-- The head of the descending insertion sort is a maximum. -/
theorem sortVersions_head_max (l : List tagVersion) (h0 : tagVersion)
    (t : List tagVersion) (hs : sortVersions l = h0 :: t) :
    ∀ u ∈ l, compareVersions u h0 = false := by
  induction l generalizing h0 t with
  | nil => simp [sortVersions] at hs
  | cons x xs ih =>
    simp only [sortVersions, List.foldr_cons] at hs
    rw [show xs.foldr insertVersion [] = sortVersions xs from rfl] at hs
    cases hx : sortVersions xs with
    | nil =>
      rw [hx] at hs
      simp only [insertVersion] at hs
      obtain ⟨rfl, rfl⟩ : x = h0 ∧ ([] : List tagVersion) = t := by
        constructor <;> cases hs <;> rfl
      intro u hu
      rcases List.mem_cons.mp hu with rfl | hu
      · exact compareVersions_irrefl u
      · exact absurd ((sortVersions_eq_nil_iff xs).mp hx ▸ hu) (by simp)
    | cons y ys =>
      rw [hx] at hs
      have hmax := ih y ys hx
      by_cases hc : compareVersions x y = true
      · simp only [insertVersion, if_pos hc] at hs
        obtain ⟨rfl, -⟩ : x = h0 ∧ y :: ys = t := by
          constructor <;> cases hs <;> rfl
        intro u hu
        rcases List.mem_cons.mp hu with rfl | hu
        · exact compareVersions_irrefl u
        · cases hux : compareVersions u x with
          | false => rfl
          | true =>
            have := compareVersions_trans u x y hux hc
            rw [hmax u hu] at this
            exact absurd this (by simp)
      · simp only [insertVersion, if_neg hc] at hs
        obtain ⟨rfl, -⟩ : y = h0 ∧ insertVersion x ys = t := by
          constructor <;> cases hs <;> rfl
        intro u hu
        rcases List.mem_cons.mp hu with rfl | hu
        · exact Bool.not_eq_true _ ▸ hc
        · exact hmax u hu

/-! ### Identifier-loop helpers -/

theorem cmpIds_cons_same (x : List Char) (r1 r2 : List (List Char)) :
    cmpIds (x :: r1) (x :: r2) = cmpIds r1 r2 := by
  cases h : parseNumericIdentifier x <;> simp [cmpIds, h]

theorem cmpIds_append_same (p : List (List Char)) (r1 r2 : List (List Char)) :
    cmpIds (p ++ r1) (p ++ r2) = cmpIds r1 r2 := by
  induction p with
  | nil => rfl
  | cons x xs ih => rw [List.cons_append, List.cons_append, cmpIds_cons_same, ih]

theorem parseNumericIdentifier_eq_some (id : List Char) (hne : id ≠ [])
    (hall : id.all isDigitChar = true) (hb : digitsToNat id ≤ maxInt64) :
    parseNumericIdentifier id = some (digitsToNat id) := by
  simp [parseNumericIdentifier, goAtoiDigits, hne, hall, hb]

theorem parseInt_eq (l : List Char) :
    parseInt l = if digitsToNat l ≤ maxInt64 then ((digitsToNat l : Int)) else 0 := by
  by_cases h : digitsToNat l ≤ maxInt64 <;> simp [parseInt, goAtoiDigits, h]

/-! ### `GetNextTag` evaluation helpers -/

theorem GetNextTag_none (t k s : List Char) (hp : ParseTagVersion t = none) :
    GetNextTag t k s = .error (.invalidCurrentTag t) := by
  simp [GetNextTag, hp]

theorem GetNextTag_ok (t k s : List Char) (v v' : tagVersion)
    (hp : ParseTagVersion t = some v) (hu : updateVersion v k s = .ok v') :
    GetNextTag t k s = .ok ('v' :: intToChars v'.Major ++ '.' :: intToChars v'.Minor ++
      '.' :: intToChars v'.Patch ++ v'.Suffix) := by
  simp [GetNextTag, hp, hu]

theorem GetNextTag_err (t k s : List Char) (v : tagVersion) (e : BumpError)
    (hp : ParseTagVersion t = some v) (hu : updateVersion v k s = .error e) :
    GetNextTag t k s = .error e := by
  simp [GetNextTag, hp, hu]

/-- Re-parsing the rendering of a version whose fields are representable and
whose suffix is well-formed recovers the `(major, minor, patch, suffix)`
quadruple exactly. -/
theorem reparse_render (w : tagVersion)
    (hM0 : 0 ≤ w.Major) (hM1 : w.Major ≤ (maxInt64 : Int))
    (hm0 : 0 ≤ w.Minor) (hm1 : w.Minor ≤ (maxInt64 : Int))
    (hp0 : 0 ≤ w.Patch) (hp1 : w.Patch ≤ (maxInt64 : Int))
    (hS : SuffixOk w.Suffix) :
    ParseTagVersion ('v' :: intToChars w.Major ++ '.' :: intToChars w.Minor ++
        '.' :: intToChars w.Patch ++ w.Suffix) =
      some ⟨w.Major, w.Minor, w.Patch, w.Suffix,
        'v' :: intToChars w.Major ++ '.' :: intToChars w.Minor ++
          '.' :: intToChars w.Patch ++ w.Suffix⟩ := by
  have hMn : w.Major.toNat ≤ maxInt64 := by omega
  have hmn : w.Minor.toNat ≤ maxInt64 := by omega
  have hpn : w.Patch.toNat ≤ maxInt64 := by omega
  obtain ⟨hane1, hall1, hval1⟩ := natToChars_spec w.Major.toNat
  obtain ⟨hane2, hall2, hval2⟩ := natToChars_spec w.Minor.toNat
  obtain ⟨hane3, hall3, hval3⟩ := natToChars_spec w.Patch.toNat
  rw [intToChars_of_nonneg _ hM0, intToChars_of_nonneg _ hm0, intToChars_of_nonneg _ hp0]
  have hassoc : ∀ A B C S : List Char,
      ('v' :: A) ++ ('.' :: B) ++ ('.' :: C) ++ S =
        'v' :: (A ++ '.' :: (B ++ '.' :: (C ++ S))) := by
    intro A B C S
    simp
  rw [hassoc, ParseTagVersion_complete _ _ _ _ hane1 hall1 hane2 hall2 hane3 hall3 hS]
  have e1 : parseInt (natToChars w.Major.toNat) = w.Major := by
    rw [parseInt_eq, hval1, if_pos hMn, Int.toNat_of_nonneg hM0]
  have e2 : parseInt (natToChars w.Minor.toNat) = w.Minor := by
    rw [parseInt_eq, hval2, if_pos hmn, Int.toNat_of_nonneg hm0]
  have e3 : parseInt (natToChars w.Patch.toNat) = w.Patch := by
    rw [parseInt_eq, hval3, if_pos hpn, Int.toNat_of_nonneg hp0]
  rw [e1, e2, e3]

/-! ### Claim theorems -/

/-- C1: for versions with equal core triples, an empty pre-release list is
GREATER than a non-empty one, and the eight parsed versions of the canonical
SemVer chain `1.0.0-alpha < 1.0.0-alpha.1 < 1.0.0-alpha.beta < 1.0.0-beta <
1.0.0-beta.2 < 1.0.0-beta.11 < 1.0.0-rc.1 < 1.0.0` are ordered strictly
ascending by `compareVersions` in exactly that order. -/
theorem claim_C1 :
    (∀ v1 v2 : tagVersion, v1.Major = v2.Major → v1.Minor = v2.Minor →
      v1.Patch = v2.Patch → v1.Suffix = [] → v2.Suffix ≠ [] →
      compareVersions v1 v2 = true ∧ compareVersions v2 v1 = false) ∧
    ([gostr "v1.0.0-alpha", gostr "v1.0.0-alpha.1", gostr "v1.0.0-alpha.beta",
      gostr "v1.0.0-beta", gostr "v1.0.0-beta.2", gostr "v1.0.0-beta.11",
      gostr "v1.0.0-rc.1", gostr "v1.0.0"].filterMap ParseTagVersion).length = 8 ∧
    List.Pairwise (fun x y => compareVersions y x = true ∧ compareVersions x y = false)
      ([gostr "v1.0.0-alpha", gostr "v1.0.0-alpha.1", gostr "v1.0.0-alpha.beta",
        gostr "v1.0.0-beta", gostr "v1.0.0-beta.2", gostr "v1.0.0-beta.11",
        gostr "v1.0.0-rc.1", gostr "v1.0.0"].filterMap ParseTagVersion) := by
  refine ⟨?_, by decide, by decide⟩
  intro v1 v2 hM hm hp hs1 hs2
  constructor
  · simp [compareVersions, hM, hm, hp, compareSuffixes, hs1, hs2]
  · simp [compareVersions, hM, hm, hp, compareSuffixes, hs1, hs2]

theorem claim_C1_witness :
    compareVersions ⟨1, 0, 0, [], gostr "v1.0.0"⟩
        ⟨1, 0, 0, gostr "-alpha", gostr "v1.0.0-alpha"⟩ = true ∧
      compareVersions ⟨1, 0, 0, gostr "-alpha", gostr "v1.0.0-alpha"⟩
        ⟨1, 0, 0, [], gostr "v1.0.0"⟩ = false :=
  claim_C1.1 ⟨1, 0, 0, [], gostr "v1.0.0"⟩ ⟨1, 0, 0, gostr "-alpha", gostr "v1.0.0-alpha"⟩
    rfl rfl rfl rfl (by decide)

/-- C2 (amended): at the first differing pre-release position where BOTH
identifiers are non-empty all-digit strings whose values fit Go's 64-bit
`int`, the comparator decides by the numeric values.  (Digit strings whose
value exceeds `2^63 - 1` make `strconv.Atoi` fail and are then compared as
alphanumeric identifiers, so the original claim's "regardless of length or
magnitude" is false.) -/
theorem claim_C2_amended (v1 v2 : tagVersion) (p r1 r2 : List (List Char))
    (i1 i2 : List Char)
    (hM : v1.Major = v2.Major) (hm : v1.Minor = v2.Minor) (hp : v1.Patch = v2.Patch)
    (hs1 : v1.Suffix ≠ []) (hs2 : v2.Suffix ≠ [])
    (hids1 : splitDot (trimDash v1.Suffix) = p ++ i1 :: r1)
    (hids2 : splitDot (trimDash v2.Suffix) = p ++ i2 :: r2)
    (hne1 : i1 ≠ []) (hall1 : i1.all isDigitChar = true)
    (hb1 : digitsToNat i1 ≤ maxInt64)
    (hne2 : i2 ≠ []) (hall2 : i2.all isDigitChar = true)
    (hb2 : digitsToNat i2 ≤ maxInt64)
    (hnev : digitsToNat i1 ≠ digitsToNat i2) :
    compareVersions v1 v2 = decide (digitsToNat i1 > digitsToNat i2) := by
  have hcs : compareVersions v1 v2 = compareSuffixes v1.Suffix v2.Suffix := by
    simp [compareVersions, hM, hm, hp]
  rw [hcs]
  have hcs2 : compareSuffixes v1.Suffix v2.Suffix =
      cmpIds (splitDot (trimDash v1.Suffix)) (splitDot (trimDash v2.Suffix)) := by
    simp [compareSuffixes, hs1, hs2]
  rw [hcs2, hids1, hids2, cmpIds_append_same]
  simp [cmpIds, parseNumericIdentifier_eq_some i1 hne1 hall1 hb1,
    parseNumericIdentifier_eq_some i2 hne2 hall2 hb2, hnev]

theorem claim_C2_amended_witness :
    compareVersions ⟨1, 0, 0, gostr "-2", gostr "v1.0.0-2"⟩
        ⟨1, 0, 0, gostr "-11", gostr "v1.0.0-11"⟩ =
      decide (digitsToNat (gostr "2") > digitsToNat (gostr "11")) :=
  claim_C2_amended ⟨1, 0, 0, gostr "-2", gostr "v1.0.0-2"⟩
    ⟨1, 0, 0, gostr "-11", gostr "v1.0.0-11"⟩ [] [] [] (gostr "2") (gostr "11")
    rfl rfl rfl (by decide) (by decide) (by decide) (by decide) (by decide) (by decide)
    (by decide) (by decide) (by decide) (by decide) (by decide)

/-- C2 counterexample: two all-digit identifiers beyond `2^63 - 1`; numerically
`10^20 > 10^20 - 1`, but the comparator (treating both as alphanumeric after
`Atoi` overflow) orders them the other way. -/
theorem claim_C2_counterexample :
    (ParseTagVersion (gostr "v1.0.0-100000000000000000000")).isSome = true ∧
    (ParseTagVersion (gostr "v1.0.0-99999999999999999999")).isSome = true ∧
    (gostr "100000000000000000000").all isDigitChar = true ∧
    (gostr "99999999999999999999").all isDigitChar = true ∧
    digitsToNat (gostr "100000000000000000000") >
      digitsToNat (gostr "99999999999999999999") ∧
    compareVersions
      ((ParseTagVersion (gostr "v1.0.0-100000000000000000000")).getD default)
      ((ParseTagVersion (gostr "v1.0.0-99999999999999999999")).getD default) = false ∧
    compareVersions
      ((ParseTagVersion (gostr "v1.0.0-99999999999999999999")).getD default)
      ((ParseTagVersion (gostr "v1.0.0-100000000000000000000")).getD default) = true := by
  decide

/-- C3 (amended): the comparator is transitive and trichotomous (exactly one
of GREATER / LESS / EQUAL holds, where EQUAL means both directions report
`false`), and two versions compare EQUAL exactly when their keys — the core
triple together with the pre-release identifier list up to numeric value —
coincide.  (Structural identity of the raw tuples is NOT necessary for
equality: `v1.0.0-1` and `v1.0.0-01` compare EQUAL with different tuples.) -/
theorem claim_C3_amended (a b c : tagVersion) :
    (compareVersions a b = true → compareVersions b c = true →
      compareVersions a c = true) ∧
    ((compareVersions a b = true ∧ compareVersions b a = false) ∨
      (compareVersions a b = false ∧ compareVersions b a = true) ∨
      (compareVersions a b = false ∧ compareVersions b a = false ∧ vKey a = vKey b)) ∧
    ((compareVersions a b = false ∧ compareVersions b a = false) ↔ vKey a = vKey b) := by
  refine ⟨compareVersions_trans a b c, ?_, compareVersions_incomp_iff a b⟩
  cases hab : compareVersions a b with
  | true => exact Or.inl ⟨rfl, compareVersions_asymm a b hab⟩
  | false =>
    cases hba : compareVersions b a with
    | true => exact Or.inr (Or.inl ⟨rfl, rfl⟩)
    | false =>
      exact Or.inr (Or.inr ⟨rfl, rfl, (compareVersions_incomp_iff a b).mp ⟨hab, hba⟩⟩)

theorem claim_C3_amended_witness :
    compareVersions ⟨2, 0, 0, [], gostr "v2.0.0"⟩ ⟨0, 1, 0, [], gostr "v0.1.0"⟩ = true :=
  (claim_C3_amended ⟨2, 0, 0, [], gostr "v2.0.0"⟩ ⟨1, 0, 0, [], gostr "v1.0.0"⟩
    ⟨0, 1, 0, [], gostr "v0.1.0"⟩).1 (by decide) (by decide)

/-- C3 counterexample: the distinct valid tags `v1.0.0-1` and `v1.0.0-01`
parse to structurally different tuples (different suffixes) yet compare
EQUAL in both directions. -/
theorem claim_C3_counterexample :
    (ParseTagVersion (gostr "v1.0.0-1")).isSome = true ∧
    (ParseTagVersion (gostr "v1.0.0-01")).isSome = true ∧
    compareVersions ((ParseTagVersion (gostr "v1.0.0-1")).getD default)
      ((ParseTagVersion (gostr "v1.0.0-01")).getD default) = false ∧
    compareVersions ((ParseTagVersion (gostr "v1.0.0-01")).getD default)
      ((ParseTagVersion (gostr "v1.0.0-1")).getD default) = false ∧
    ((ParseTagVersion (gostr "v1.0.0-1")).getD default).Suffix ≠
      ((ParseTagVersion (gostr "v1.0.0-01")).getD default).Suffix := by
  decide

/-- C4 (amended): `ParseTagVersion` succeeds exactly on full-string matches of
`v<digits>.<digits>.<digits>` optionally followed by `-` and a non-empty run
of characters from `[0-9A-Za-z-.]` — identifiers between dots may be EMPTY,
because the regex places `.` inside the character class.  (The original
claim's requirement that every dot-separated identifier be non-empty is
false: `v1.0.0-a..b` parses.) -/
theorem claim_C4_amended (s : List Char) :
    (ParseTagVersion s).isSome = true ↔ MatchesTagGrammar s := by
  constructor
  · intro h
    obtain ⟨v, hv⟩ := Option.isSome_iff_exists.mp h
    exact ParseTagVersion_sound s v hv
  · rintro ⟨d1, d2, d3, suf, rfl, h1, ha1, h2, ha2, h3, ha3, hsuf⟩
    rw [ParseTagVersion_complete d1 d2 d3 suf h1 ha1 h2 ha2 h3 ha3 hsuf]
    rfl

theorem claim_C4_amended_witness : MatchesTagGrammar (gostr "v1.2.3") :=
  (claim_C4_amended (gostr "v1.2.3")).mp (by decide)

/-- C4 counterexample: `v1.0.0-a..b` has an empty identifier between dots in
its pre-release block, yet the parser accepts it. -/
theorem claim_C4_counterexample :
    (ParseTagVersion (gostr "v1.0.0-a..b")).isSome = true ∧
    splitDot (trimDash (gostr "-a..b")) = [gostr "a", [], gostr "b"] := by
  decide

/-- C5 (amended): for an accepted tag, each of major/minor/patch equals the
exact base-10 value of its digit substring when that value fits Go's 64-bit
`int`, and is 0 otherwise (`strconv.Atoi` fails on overflow and `parseInt`
defaults to 0). -/
theorem claim_C5_amended (d1 d2 d3 suf : List Char)
    (h1 : d1 ≠ []) (ha1 : d1.all isDigitChar = true)
    (h2 : d2 ≠ []) (ha2 : d2.all isDigitChar = true)
    (h3 : d3 ≠ []) (ha3 : d3.all isDigitChar = true)
    (hsuf : SuffixOk suf) (v : tagVersion)
    (hv : ParseTagVersion ('v' :: (d1 ++ '.' :: (d2 ++ '.' :: (d3 ++ suf)))) = some v) :
    v.Major = (if digitsToNat d1 ≤ maxInt64 then ((digitsToNat d1 : Int)) else 0) ∧
    v.Minor = (if digitsToNat d2 ≤ maxInt64 then ((digitsToNat d2 : Int)) else 0) ∧
    v.Patch = (if digitsToNat d3 ≤ maxInt64 then ((digitsToNat d3 : Int)) else 0) := by
  rw [ParseTagVersion_complete d1 d2 d3 suf h1 ha1 h2 ha2 h3 ha3 hsuf] at hv
  have hv' := Option.some_inj.mp hv
  rw [← hv']
  exact ⟨parseInt_eq d1, parseInt_eq d2, parseInt_eq d3⟩

theorem claim_C5_amended_witness :
    (⟨1, 2, 3, [], gostr "v1.2.3"⟩ : tagVersion).Major =
      (if digitsToNat (gostr "1") ≤ maxInt64 then ((digitsToNat (gostr "1") : Int)) else 0) ∧
    (⟨1, 2, 3, [], gostr "v1.2.3"⟩ : tagVersion).Minor =
      (if digitsToNat (gostr "2") ≤ maxInt64 then ((digitsToNat (gostr "2") : Int)) else 0) ∧
    (⟨1, 2, 3, [], gostr "v1.2.3"⟩ : tagVersion).Patch =
      (if digitsToNat (gostr "3") ≤ maxInt64 then ((digitsToNat (gostr "3") : Int)) else 0) :=
  claim_C5_amended (gostr "1") (gostr "2") (gostr "3") [] (by decide) (by decide)
    (by decide) (by decide) (by decide) (by decide) (Or.inl rfl)
    ⟨1, 2, 3, [], gostr "v1.2.3"⟩ (by decide)

/-- C5 counterexample: the 19-digit-plus-one substring `9223372036854775808`
(= 2^63, one past Go's `int` maximum) parses to Major 0, not its exact value. -/
theorem claim_C5_counterexample :
    ParseTagVersion (gostr "v9223372036854775808.0.0") =
      some ⟨0, 0, 0, [], gostr "v9223372036854775808.0.0"⟩ ∧
    digitsToNat (gostr "9223372036854775808") = 9223372036854775808 := by
  decide

/-- C6 (amended): for each recognized bump type, `updateVersion` produces the
transition-table core triple — provided the incremented field stays below
Go's `int` maximum (at the maximum, the increment wraps to `-2^63`) — and the
result's suffix comes solely from the `suffix` argument: empty suffix gives
no pre-release, non-empty suffix gives exactly `"-" + suffix`. -/
theorem claim_C6_amended (v : tagVersion) (bumpType suffix : List Char) :
    (bumpType = gostr "major" → 0 ≤ v.Major → v.Major < (maxInt64 : Int) →
      updateVersion v bumpType suffix =
        .ok ⟨v.Major + 1, 0, 0, if suffix = [] then [] else '-' :: suffix, v.Tag⟩) ∧
    (bumpType = gostr "minor" → 0 ≤ v.Minor → v.Minor < (maxInt64 : Int) →
      updateVersion v bumpType suffix =
        .ok ⟨v.Major, v.Minor + 1, 0, if suffix = [] then [] else '-' :: suffix, v.Tag⟩) ∧
    (bumpType = gostr "patch" → 0 ≤ v.Patch → v.Patch < (maxInt64 : Int) →
      updateVersion v bumpType suffix =
        .ok ⟨v.Major, v.Minor, v.Patch + 1,
          if suffix = [] then [] else '-' :: suffix, v.Tag⟩) := by
  have hmax : (maxInt64 : Int) = 2 ^ 63 - 1 := by norm_num [maxInt64]
  refine ⟨?_, ?_, ?_⟩
  · rintro rfl h0 h1
    rw [hmax] at h1
    rw [updateVersion_major, wrap64_eq_self _ (by omega) (by omega)]
  · rintro rfl h0 h1
    rw [hmax] at h1
    rw [updateVersion_minor, wrap64_eq_self _ (by omega) (by omega)]
  · rintro rfl h0 h1
    rw [hmax] at h1
    rw [updateVersion_patch, wrap64_eq_self _ (by omega) (by omega)]

theorem claim_C6_amended_witness :
    updateVersion ⟨1, 2, 3, [], gostr "v1.2.3"⟩ (gostr "major") [] =
      .ok ⟨(1 : Int) + 1, 0, 0,
        if ([] : List Char) = [] then [] else '-' :: ([] : List Char), gostr "v1.2.3"⟩ :=
  (claim_C6_amended ⟨1, 2, 3, [], gostr "v1.2.3"⟩ (gostr "major") []).1 rfl
    (by decide) (by decide)

/-- C6 counterexample: bumping the parsed version `v9223372036854775807.0.0`
(major = Go `int` maximum) gives major `-2^63`, not `major + 1`. -/
theorem claim_C6_counterexample :
    ParseTagVersion (gostr "v9223372036854775807.0.0") =
      some ⟨(9223372036854775807 : Int), 0, 0, [], gostr "v9223372036854775807.0.0"⟩ ∧
    updateVersion ⟨(9223372036854775807 : Int), 0, 0, [], gostr "v9223372036854775807.0.0"⟩
        (gostr "major") [] =
      .ok ⟨(-9223372036854775808 : Int), 0, 0, [], gostr "v9223372036854775807.0.0"⟩ ∧
    (-9223372036854775808 : Int) ≠ (9223372036854775807 : Int) + 1 := by
  decide

/-- C7: the tag-string bump wrapper fails exactly when the current tag does
not parse (surfacing `invalid current tag format`) or the bump type is not
one of major/minor/patch (surfacing `unknown bump type`, checked only after
a successful parse); for every parseable tag and recognized type it
succeeds. -/
theorem claim_C7 (currentTag bumpType suffix : List Char) :
    ((∃ r, GetNextTag currentTag bumpType suffix = .ok r) ↔
      ((ParseTagVersion currentTag).isSome = true ∧
        (bumpType = gostr "major" ∨ bumpType = gostr "minor" ∨
          bumpType = gostr "patch"))) ∧
    (ParseTagVersion currentTag = none →
      GetNextTag currentTag bumpType suffix = .error (.invalidCurrentTag currentTag)) ∧
    (∀ v, ParseTagVersion currentTag = some v →
      bumpType ≠ gostr "major" → bumpType ≠ gostr "minor" → bumpType ≠ gostr "patch" →
      GetNextTag currentTag bumpType suffix = .error (.unknownBumpType bumpType)) := by
  refine ⟨⟨?_, ?_⟩, ?_, ?_⟩
  · rintro ⟨r, hr⟩
    cases hp : ParseTagVersion currentTag with
    | none =>
      rw [GetNextTag_none _ _ _ hp] at hr
      exact absurd hr (by simp)
    | some v =>
      refine ⟨by simp [hp], ?_⟩
      by_contra hk
      push_neg at hk
      obtain ⟨k1, k2, k3⟩ := hk
      rw [GetNextTag_err _ _ _ v _ hp (updateVersion_unknown v _ _ k1 k2 k3)] at hr
      exact absurd hr (by simp)
  · rintro ⟨hsome, hk⟩
    obtain ⟨v, hv⟩ := Option.isSome_iff_exists.mp hsome
    rcases hk with rfl | rfl | rfl
    · exact ⟨_, GetNextTag_ok _ _ _ v _ hv (updateVersion_major v suffix)⟩
    · exact ⟨_, GetNextTag_ok _ _ _ v _ hv (updateVersion_minor v suffix)⟩
    · exact ⟨_, GetNextTag_ok _ _ _ v _ hv (updateVersion_patch v suffix)⟩
  · intro hp
    exact GetNextTag_none _ _ _ hp
  · intro v hv k1 k2 k3
    exact GetNextTag_err _ _ _ v _ hv (updateVersion_unknown v _ _ k1 k2 k3)

theorem claim_C7_witness :
    GetNextTag (gostr "not-a-tag") (gostr "major") [] =
      .error (.invalidCurrentTag (gostr "not-a-tag")) :=
  (claim_C7 (gostr "not-a-tag") (gostr "major") []).2.1 (by decide)

/-- C8 (amended): for a parseable current tag, a recognized bump type with a
successful update, a suffix that is empty or drawn from `[0-9A-Za-z-.]`, and
no `int` overflow of the incremented field, the rendered next tag re-parses
and the parse agrees with the bumped version on the whole
`(major, minor, patch, suffix)` quadruple.  (For a suffix with characters
outside the class — e.g. `"!"` — or an overflowing bump, the rendering does
not re-parse, so the original unconditional claim is false.) -/
theorem claim_C8_amended (currentTag bumpType suffix : List Char) (v v' : tagVersion)
    (hp : ParseTagVersion currentTag = some v)
    (hsuf : suffix = [] ∨ suffix.all isSuffixChar = true)
    (hov : (bumpType = gostr "major" → v.Major < (maxInt64 : Int)) ∧
      (bumpType = gostr "minor" → v.Minor < (maxInt64 : Int)) ∧
      (bumpType = gostr "patch" → v.Patch < (maxInt64 : Int)))
    (hu : updateVersion v bumpType suffix = .ok v') :
    GetNextTag currentTag bumpType suffix =
      .ok ('v' :: intToChars v'.Major ++ '.' :: intToChars v'.Minor ++
        '.' :: intToChars v'.Patch ++ v'.Suffix) ∧
    ParseTagVersion ('v' :: intToChars v'.Major ++ '.' :: intToChars v'.Minor ++
        '.' :: intToChars v'.Patch ++ v'.Suffix) =
      some ⟨v'.Major, v'.Minor, v'.Patch, v'.Suffix,
        'v' :: intToChars v'.Major ++ '.' :: intToChars v'.Minor ++
          '.' :: intToChars v'.Patch ++ v'.Suffix⟩ := by
  obtain ⟨hM0, hM1, hm0, hm1, hq0, hq1, -, -⟩ := ParseTagVersion_fields _ _ hp
  have hmax : (maxInt64 : Int) = 2 ^ 63 - 1 := by norm_num [maxInt64]
  rw [hmax] at hM1 hm1 hq1
  have hS : SuffixOk (if suffix = [] then [] else '-' :: suffix) := by
    rcases eq_or_ne suffix [] with rfl | hne
    · rw [if_pos rfl]
      exact Or.inl rfl
    · rcases hsuf with rfl | hall
      · exact absurd rfl hne
      · rw [if_neg hne]
        exact Or.inr ⟨suffix, rfl, hne, hall⟩
  by_cases k1 : bumpType = gostr "major"
  · subst k1
    have hovM := hov.1 rfl
    rw [hmax] at hovM
    rw [updateVersion_major] at hu
    obtain rfl := Except.ok.inj hu
    have hw : wrap64 (v.Major + 1) = v.Major + 1 := wrap64_eq_self _ (by omega) (by omega)
    refine ⟨GetNextTag_ok _ _ _ v _ hp (by rw [updateVersion_major]), ?_⟩
    refine reparse_render _ ?_ ?_ ?_ ?_ ?_ ?_ hS
    · show 0 ≤ wrap64 (v.Major + 1)
      rw [hw]; omega
    · show wrap64 (v.Major + 1) ≤ (maxInt64 : Int)
      rw [hw, hmax]; omega
    · exact le_refl 0
    · show (0 : Int) ≤ (maxInt64 : Int)
      rw [hmax]; norm_num
    · exact le_refl 0
    · show (0 : Int) ≤ (maxInt64 : Int)
      rw [hmax]; norm_num
  · by_cases k2 : bumpType = gostr "minor"
    · subst k2
      have hovm := hov.2.1 rfl
      rw [hmax] at hovm
      rw [updateVersion_minor] at hu
      obtain rfl := Except.ok.inj hu
      have hw : wrap64 (v.Minor + 1) = v.Minor + 1 := wrap64_eq_self _ (by omega) (by omega)
      refine ⟨GetNextTag_ok _ _ _ v _ hp (by rw [updateVersion_minor]), ?_⟩
      refine reparse_render _ ?_ ?_ ?_ ?_ ?_ ?_ hS
      · exact hM0
      · show v.Major ≤ (maxInt64 : Int)
        rw [hmax]; omega
      · show 0 ≤ wrap64 (v.Minor + 1)
        rw [hw]; omega
      · show wrap64 (v.Minor + 1) ≤ (maxInt64 : Int)
        rw [hw, hmax]; omega
      · exact le_refl 0
      · show (0 : Int) ≤ (maxInt64 : Int)
        rw [hmax]; norm_num
    · by_cases k3 : bumpType = gostr "patch"
      · subst k3
        have hovp := hov.2.2 rfl
        rw [hmax] at hovp
        rw [updateVersion_patch] at hu
        obtain rfl := Except.ok.inj hu
        have hw : wrap64 (v.Patch + 1) = v.Patch + 1 :=
          wrap64_eq_self _ (by omega) (by omega)
        refine ⟨GetNextTag_ok _ _ _ v _ hp (by rw [updateVersion_patch]), ?_⟩
        refine reparse_render _ ?_ ?_ ?_ ?_ ?_ ?_ hS
        · exact hM0
        · show v.Major ≤ (maxInt64 : Int)
          rw [hmax]; omega
        · exact hm0
        · show v.Minor ≤ (maxInt64 : Int)
          rw [hmax]; omega
        · show 0 ≤ wrap64 (v.Patch + 1)
          rw [hw]; omega
        · show wrap64 (v.Patch + 1) ≤ (maxInt64 : Int)
          rw [hw, hmax]; omega
      · rw [updateVersion_unknown v _ _ k1 k2 k3] at hu
        exact absurd hu (by simp)

theorem claim_C8_amended_witness :
    GetNextTag (gostr "v1.2.3") (gostr "minor") (gostr "rc1") =
      .ok (gostr "v1.3.0-rc1") := by
  have h := claim_C8_amended (gostr "v1.2.3") (gostr "minor") (gostr "rc1")
    ⟨1, 2, 3, [], gostr "v1.2.3"⟩ ⟨1, 3, 0, gostr "-rc1", gostr "v1.2.3"⟩
    (by decide) (Or.inr (by decide)) (by decide) (by decide)
  exact h.1.trans (by decide)

/-- C8 counterexample: bumping with the suffix `"!"` renders `v1.3.0-!`,
which the parser rejects, so the round-trip fails. -/
theorem claim_C8_counterexample :
    GetNextTag (gostr "v1.2.3") (gostr "minor") (gostr "!") =
      .ok (gostr "v1.3.0-!") ∧
    ParseTagVersion (gostr "v1.3.0-!") = none := by
  decide

/-- C9: the selector silently drops exactly the tags the parser rejects,
returns `none` (a non-error empty result) exactly when no tag parses, and
any returned tag is a parseable member of the input whose version no parsed
version strictly exceeds. -/
theorem claim_C9 (tags : List (List Char)) :
    (GetLatestTag tags = none ↔ getTagVersions tags = []) ∧
    (getTagVersions tags = [] ↔ ∀ t ∈ tags, ParseTagVersion t = none) ∧
    (∀ t, GetLatestTag tags = some t →
      ∃ v, ParseTagVersion t = some v ∧ t ∈ tags ∧
        ∀ u ∈ getTagVersions tags, compareVersions u v = false) := by
  refine ⟨?_, ?_, ?_⟩
  · constructor
    · intro h
      unfold GetLatestTag at h
      cases hs : sortVersions (getTagVersions tags) with
      | nil => exact (sortVersions_eq_nil_iff _).mp hs
      | cons h0 t' =>
        rw [hs] at h
        simp at h
    · intro h
      unfold GetLatestTag
      rw [show sortVersions (getTagVersions tags) = [] from by rw [h]; rfl]
  · simp [getTagVersions, List.filterMap_eq_nil_iff]
  · intro t ht
    unfold GetLatestTag at ht
    cases hs : sortVersions (getTagVersions tags) with
    | nil =>
      rw [hs] at ht
      simp at ht
    | cons h0 t' =>
      rw [hs] at ht
      have ht' : h0.Tag = t := by
        simpa using ht
      have hmem : h0 ∈ getTagVersions tags := by
        rw [← mem_sortVersions h0 (getTagVersions tags), hs]
        exact List.mem_cons_self h0 t'
      obtain ⟨s, hsmem, hparse⟩ := List.mem_filterMap.mp hmem
      have htag : h0.Tag = s := (ParseTagVersion_fields s h0 hparse).2.2.2.2.2.2.2
      refine ⟨h0, ?_, ?_, sortVersions_head_max _ _ _ hs⟩
      · rw [← ht', htag]
        exact hparse
      · rw [← ht', htag]
        exact hsmem

theorem claim_C9_witness :
    ∃ v, ParseTagVersion (gostr "v1.0.1") = some v ∧
      gostr "v1.0.1" ∈ [gostr "release", gostr "v1.0.1", gostr "v1.0.0"] ∧
      ∀ u ∈ getTagVersions [gostr "release", gostr "v1.0.1", gostr "v1.0.0"],
        compareVersions u v = false :=
  (claim_C9 [gostr "release", gostr "v1.0.1", gostr "v1.0.0"]).2.2
    (gostr "v1.0.1") (by decide)

/-- C10: with no existing tag (empty latest-tag string), `calculateNextVersion`
returns exactly `v0.1.0` for every bump type (even unrecognized ones) and
every suffix, which is ignored. -/
theorem claim_C10 (bumpType suffix : List Char) :
    calculateNextVersion [] bumpType suffix = .ok (gostr "v0.1.0") := by
  simp [calculateNextVersion]

end Bump
